import Mathlib

/-!
Verification of the `kysee/zk-chains` Ethereum beacon-chain light-client
update circuit and its host proof lifecycle.

The circuit (`circuits/eth2_receipt_proof.go`, `Eth2ScUpdateCircuit`) is a
gnark arithmetic circuit; its gadget calls are embedded shallowly:

* `uints.U8` values are `Nat` (byte values `< 256`), byte arrays are
  `List Nat`;
* the in-circuit SHA-256 gadget (`sha2.New` / `Write` / `Sum`) is modelled
  by an executable SHA-256 over byte lists (`sha256`), so that concrete
  hash computations can be settled by `decide`;
* emulated BLS12-381 base-field elements are `ZMod blsP`;
* G1 points in the aggregation gadget are elements of an arbitrary additive
  commutative monoid (the aggregation logic only uses `curve.Add` and
  `curve.Select`);
* `frontend.Variable` bits that the circuit treats as booleans are `Bool`.

Host-side Go code (`types`, `relayer`, prover `cmd`) is embedded as plain
functions; file-system presence of build artifacts is a `Bool` parameter.
-/

/-! ## SHA-256 (executable, byte-list based)

Model of the SHA-256 function used both by the in-circuit `sha2` gadget and
by the host's `crypto/sha256`. Words are `Nat` kept below `2 ^ 32`.
-/

/-- The word modulus of SHA-256, 2^32. -/
def sha256M : Nat := 4294967296

/-- Right-rotation of a 32-bit word by `n` (arithmetic form). -/
def rotr32 (n x : Nat) : Nat := x / 2 ^ n + x % 2 ^ n * 2 ^ (32 - n)

/-- Logical right shift of a 32-bit word. -/
def shr32 (n x : Nat) : Nat := x / 2 ^ n

/-- Bitwise complement on 32 bits. -/
def not32 (x : Nat) : Nat := x ^^^ (sha256M - 1)

/-- SHA-256 Ch function. -/
def shaCh (x y z : Nat) : Nat := (x &&& y) ^^^ (not32 x &&& z)

/-- SHA-256 Maj function. -/
def shaMaj (x y z : Nat) : Nat := (x &&& y) ^^^ (x &&& z) ^^^ (y &&& z)

/-- SHA-256 Σ₀. -/
def shaS0 (x : Nat) : Nat := rotr32 2 x ^^^ rotr32 13 x ^^^ rotr32 22 x

/-- SHA-256 Σ₁. -/
def shaS1 (x : Nat) : Nat := rotr32 6 x ^^^ rotr32 11 x ^^^ rotr32 25 x

/-- SHA-256 σ₀. -/
def shas0 (x : Nat) : Nat := rotr32 7 x ^^^ rotr32 18 x ^^^ shr32 3 x

/-- SHA-256 σ₁. -/
def shas1 (x : Nat) : Nat := rotr32 17 x ^^^ rotr32 19 x ^^^ shr32 10 x

/-- The 64 SHA-256 round constants. -/
def sha256K : List Nat :=
  [1116352408, 1899447441, 3049323471, 3921009573, 961987163,
   1508970993, 2453635748, 2870763221, 3624381080, 310598401,
   607225278, 1426881987, 1925078388, 2162078206, 2614888103,
   3248222580, 3835390401, 4022224774, 264347078, 604807628,
   770255983, 1249150122, 1555081692, 1996064986, 2554220882,
   2821834349, 2952996808, 3210313671, 3336571891, 3584528711,
   113926993, 338241895, 666307205, 773529912, 1294757372,
   1396182291, 1695183700, 1986661051, 2177026350, 2456956037,
   2730485921, 2820302411, 3259730800, 3345764771, 3516065817,
   3600352804, 4094571909, 275423344, 430227734, 506948616,
   659060556, 883997877, 958139571, 1322822218, 1537002063,
   1747873779, 1955562222, 2024104815, 2227730452, 2361852424,
   2428436474, 2756734187, 3204031479, 3329325298]

/-- Working state of the SHA-256 compression function. -/
structure Sha256State where
  a : Nat
  b : Nat
  c : Nat
  d : Nat
  e : Nat
  f : Nat
  g : Nat
  h : Nat

/-- SHA-256 initial hash value. -/
def sha256IV : Sha256State :=
  ⟨1779033703, 3144134277, 1013904242, 2773480762, 1359893119, 2600822924, 528734635, 1541459225⟩

/-- One SHA-256 round; `kw` is `K[t] + W[t]` reduced mod `2 ^ 32`. -/
def sha256Round (st : Sha256State) (kw : Nat) : Sha256State :=
  let t1 := (st.h + shaS1 st.e + shaCh st.e st.f st.g + kw) % sha256M
  let t2 := (shaS0 st.a + shaMaj st.a st.b st.c) % sha256M
  ⟨(t1 + t2) % sha256M, st.a, st.b, st.c, (st.d + t1) % sha256M, st.e, st.f, st.g⟩

/-- Extend the 16 message words of a block to the 64-word schedule. -/
def sha256Schedule (w16 : List Nat) : List Nat :=
  (List.range 48).foldl
    (fun w t =>
      w ++ [(shas1 (w.getD (t + 14) 0) + w.getD (t + 9) 0 +
             shas0 (w.getD (t + 1) 0) + w.getD t 0) % sha256M])
    w16

/-- Compress one 64-byte block into the running state. -/
def sha256CompressBlock (st : Sha256State) (block : List Nat) : Sha256State :=
  let w16 := (List.range 16).map fun i =>
    block.getD (4 * i) 0 * 16777216 + block.getD (4 * i + 1) 0 * 65536 +
    block.getD (4 * i + 2) 0 * 256 + block.getD (4 * i + 3) 0
  let w := sha256Schedule w16
  let st2 := (sha256K.zip w).foldl (fun s p => sha256Round s ((p.1 + p.2) % sha256M)) st
  ⟨(st.a + st2.a) % sha256M, (st.b + st2.b) % sha256M, (st.c + st2.c) % sha256M,
   (st.d + st2.d) % sha256M, (st.e + st2.e) % sha256M, (st.f + st2.f) % sha256M,
   (st.g + st2.g) % sha256M, (st.h + st2.h) % sha256M⟩

/-- Big-endian 8-byte serialization (used for the SHA-256 length field). -/
def be8Bytes (x : Nat) : List Nat :=
  (List.range 8).map fun i => x / 2 ^ (8 * (7 - i)) % 256

/-- SHA-256 message padding: `0x80`, zeros, then the bit length, to a
multiple of 64 bytes. -/
def sha256Pad (msg : List Nat) : List Nat :=
  msg ++ [0x80] ++ List.replicate ((119 - msg.length % 64) % 64) 0 ++ be8Bytes (8 * msg.length)

/-- Split a byte list into 64-byte blocks (`fuel` bounds the recursion). -/
def chunks64Aux : Nat → List Nat → List (List Nat)
  | 0, _ => []
  | _ + 1, [] => []
  | fuel + 1, l => l.take 64 :: chunks64Aux fuel (l.drop 64)

/-- Big-endian 4-byte serialization of a 32-bit word. -/
def wordBE (x : Nat) : List Nat := [x / 16777216 % 256, x / 65536 % 256, x / 256 % 256, x % 256]

/-- Full SHA-256: pad, compress all blocks, serialize the state. -/
def sha256 (msg : List Nat) : List Nat :=
  let padded := sha256Pad msg
  let fin := (chunks64Aux padded.length padded).foldl sha256CompressBlock sha256IV
  wordBE fin.a ++ wordBE fin.b ++ wordBE fin.c ++ wordBE fin.d ++
  wordBE fin.e ++ wordBE fin.f ++ wordBE fin.g ++ wordBE fin.h

/-- A SHA-256 digest is always 32 bytes. -/
theorem sha256_length (msg : List Nat) : (sha256 msg).length = 32 := by
  simp [sha256, wordBE]

/-- FIPS 180-4 test vector: SHA-256 of the empty message. -/
example : sha256 [] =
    [0xe3, 0xb0, 0xc4, 0x42, 0x98, 0xfc, 0x1c, 0x14, 0x9a, 0xfb, 0xf4, 0xc8,
     0x99, 0x6f, 0xb9, 0x24, 0x27, 0xae, 0x41, 0xe4, 0x64, 0x9b, 0x93, 0x4c,
     0xa4, 0x95, 0x99, 0x1b, 0x78, 0x52, 0xb8, 0x55] := by decide

/-- FIPS 180-4 test vector: SHA-256 of "abc". -/
example : sha256 [0x61, 0x62, 0x63] =
    [0xba, 0x78, 0x16, 0xbf, 0x8f, 0x01, 0xcf, 0xea, 0x41, 0x41, 0x40, 0xde,
     0x5d, 0xae, 0x22, 0x23, 0xb0, 0x03, 0x61, 0xa3, 0x96, 0x17, 0x7a, 0x9c,
     0xb4, 0x10, 0xff, 0x61, 0xf2, 0x00, 0x15, 0xad] := by decide

/-! ## SSZ hashing helpers of `Eth2ScUpdateCircuit`

Embeddings of the helper gadgets at the bottom of
`circuits/eth2_receipt_proof.go`.
-/

/-- Gadget `hashPair`: SHA-256 of the 64-byte concatenation `left ++ right`. -/
def hashPair (left right : List Nat) : List Nat := sha256 (left ++ right)

/-- Gadget `zeroChunk`: 32 zero bytes. -/
def zeroChunk : List Nat := List.replicate 32 0

/-- Gadget `serializeUint64ToChunk`: little-endian bytes of a 64-bit value followed
by 24 zero bytes (the gadget packs `ToBinary(value, 64)` into 8 bytes,
little-endian, then zero-pads). -/
def serializeUint64ToChunk (value : Nat) : List Nat :=
  ((List.range 8).map fun byteIdx => value / 2 ^ (8 * byteIdx) % 256) ++ List.replicate 24 0

/-- Gadget `computeBlockRoot`: the circuit's SSZ hash-tree-root of the beacon block
header (lines 144-165 of `eth2_receipt_proof.go`). -/
def computeBlockRoot (slot proposerIndex : Nat)
    (parentRoot stateRoot bodyRoot : List Nat) : List Nat :=
  let slotChunk := serializeUint64ToChunk slot
  let proposerChunk := serializeUint64ToChunk proposerIndex
  let h01 := hashPair slotChunk proposerChunk
  let h23 := hashPair parentRoot stateRoot
  let h45 := hashPair bodyRoot zeroChunk
  let h67 := hashPair zeroChunk zeroChunk
  let h0123 := hashPair h01 h23
  let h4567 := hashPair h45 h67
  hashPair h0123 h4567

/-- Spec-side: one level of pairwise 2-to-1 SHA-256 compressions over
64-byte inputs. -/
def hashTreeLevel : List (List Nat) → List (List Nat)
  | a :: b :: rest => sha256 (a ++ b) :: hashTreeLevel rest
  | _ => []

/-- Spec-side: root of an 8-leaf SSZ Merkle tree, three levels of pairwise
compressions. -/
def sszMerkleRoot8 (leaves : List (List Nat)) : List Nat :=
  (hashTreeLevel (hashTreeLevel (hashTreeLevel leaves))).headD []

/-- Spec-side: a 64-bit scalar serialized little-endian into a 32-byte
chunk (all 32 little-endian base-256 digits; for `value < 2 ^ 64` the top
24 are zero). -/
def sszUint64Chunk (value : Nat) : List Nat :=
  (List.range 32).map fun i => value / 2 ^ (8 * i) % 256

/-! ## Next-sync-committee Merkle inclusion proof (C4) -/

/-- The compile-time-fixed path bits of generalized index 87 (position 23 =
0b10111, LSB first), from `verifyNextSyncCommitteeMerkleProof`. -/
def nextScPath : List Bool := [true, true, true, false, true, false]

/-- One Merkle level: hash `(sibling, current)` when the path bit is 1,
`(current, sibling)` when it is 0. -/
def merkleStep (current sibling : List Nat) (bit : Bool) : List Nat :=
  if bit then hashPair sibling current else hashPair current sibling

/-- Walk a Merkle branch from a leaf along the given path bits. -/
def foldMerkleBranch (path : List Bool) (branch : List (List Nat)) (leaf : List Nat) : List Nat :=
  (path.zip branch).foldl (fun current pb => merkleStep current pb.2 pb.1) leaf

/-- Gadget `verifyNextSyncCommitteeMerkleProof`: the constraints assert that the
6-level walk from `NextScRoot` along path `[1,1,1,0,1,0]` with siblings
`NextScBranch` (a 6-entry branch) ends at `StateRoot`, byte-for-byte. -/
def verifyNextSyncCommitteeMerkleProof (nextScBranch : List (List Nat))
    (nextScRoot stateRoot : List Nat) : Prop :=
  foldMerkleBranch nextScPath nextScBranch nextScRoot = stateRoot

/-- The path bits of generalized index 87 shifted down by one bit
(zero-filled), used to check that a shifted path fails. -/
def nextScPathShifted : List Bool := [true, true, false, true, false, false]

/-- The circuit's uint64 chunk serialization (8 little-endian bytes plus 24
zero bytes) agrees with the full 32-byte little-endian serialization for
values in uint64 range. -/
theorem serializeUint64_eq_sszChunk (value : Nat) (h : value < 2 ^ 64) :
    serializeUint64ToChunk value = sszUint64Chunk value := by
  unfold serializeUint64ToChunk sszUint64Chunk
  rw [show (32 : Nat) = 8 + 24 from rfl, List.range_add, List.map_append, List.map_map]
  congr 1
  symm
  rw [List.eq_replicate_iff]
  refine ⟨by simp, ?_⟩
  intro b hb
  obtain ⟨i, _, hi⟩ := List.mem_map.mp hb
  have hz : value / 2 ^ (8 * (8 + i)) = 0 := by
    apply Nat.div_eq_of_lt
    calc value < 2 ^ 64 := h
    _ ≤ 2 ^ (8 * (8 + i)) := Nat.pow_le_pow_right (by omega) (by omega)
  simpa [hz] using hi.symm

/-- C3: for every slot and proposer index in uint64 range and all
32-byte roots, `computeBlockRoot` equals the 8-leaf SSZ hash-tree-root of
the leaves `[slotChunk, proposerChunk, parentRoot, stateRoot, bodyRoot, 0,
0, 0]` (scalars serialized little-endian into 32-byte chunks, three levels
of pairwise SHA-256 compressions), and the result is 32 bytes. -/
theorem computeBlockRoot_correct (slot proposerIndex : Nat)
    (parentRoot stateRoot bodyRoot : List Nat)
    (hs : slot < 2 ^ 64) (hp : proposerIndex < 2 ^ 64)
    (h1 : parentRoot.length = 32) (h2 : stateRoot.length = 32) (h3 : bodyRoot.length = 32) :
    computeBlockRoot slot proposerIndex parentRoot stateRoot bodyRoot =
      sszMerkleRoot8 [sszUint64Chunk slot, sszUint64Chunk proposerIndex,
        parentRoot, stateRoot, bodyRoot, zeroChunk, zeroChunk, zeroChunk] ∧
    (computeBlockRoot slot proposerIndex parentRoot stateRoot bodyRoot).length = 32 := by
  refine ⟨?_, sha256_length _⟩
  rw [← serializeUint64_eq_sszChunk slot hs, ← serializeUint64_eq_sszChunk proposerIndex hp]
  rfl

/-- Witness for `computeBlockRoot_correct` at slot 0, proposer 0, all-zero
roots. -/
theorem computeBlockRoot_correct_witness :
    ((0 : Nat) < 2 ^ 64 ∧ zeroChunk.length = 32) ∧
    (computeBlockRoot 0 0 zeroChunk zeroChunk zeroChunk =
      sszMerkleRoot8 [sszUint64Chunk 0, sszUint64Chunk 0,
        zeroChunk, zeroChunk, zeroChunk, zeroChunk, zeroChunk, zeroChunk] ∧
    (computeBlockRoot 0 0 zeroChunk zeroChunk zeroChunk).length = 32) :=
  ⟨⟨by decide, by decide⟩,
    computeBlockRoot_correct 0 0 zeroChunk zeroChunk zeroChunk
      (by decide) (by decide) (by decide) (by decide) (by decide)⟩

set_option maxRecDepth 10000 in
set_option maxHeartbeats 4000000 in
/-- C4: the gadget `verifyNextSyncCommitteeMerkleProof` walks exactly 6 levels from
the `NextScRoot` leaf with the compile-time-fixed path bits `[1,1,1,0,1,0]`
(LSB-first, generalized index 87), hashing `(sibling, current)` on bit 1 and
`(current, sibling)` on bit 0, and asserts the result equals `StateRoot`;
and on a concrete branch, the walk along the path shifted by one bit yields
a different root, so the same branch does not satisfy the constraints
against the shifted path. -/
theorem verifyNextScMerkleProof_correct :
    (∀ (b0 b1 b2 b3 b4 b5 leaf stateRoot : List Nat),
      verifyNextSyncCommitteeMerkleProof [b0, b1, b2, b3, b4, b5] leaf stateRoot ↔
        sha256 (sha256 (b4 ++
            sha256 (sha256 (b2 ++ sha256 (b1 ++ sha256 (b0 ++ leaf))) ++ b3)) ++ b5) =
          stateRoot) ∧
    verifyNextSyncCommitteeMerkleProof (List.replicate 6 zeroChunk) zeroChunk
      (foldMerkleBranch nextScPath (List.replicate 6 zeroChunk) zeroChunk) ∧
    foldMerkleBranch nextScPathShifted (List.replicate 6 zeroChunk) zeroChunk ≠
      foldMerkleBranch nextScPath (List.replicate 6 zeroChunk) zeroChunk := by
  refine ⟨fun b0 b1 b2 b3 b4 b5 leaf stateRoot => Iff.rfl, rfl, by decide⟩

/-! ## Sync-committee public-key commitment (C2)

The circuit (`verifyScPubKeysHash`) hashes, for each of the 512 keys,
`serializeLimbTo8Bytes(X.Limbs[1]) ++ serializeLimbTo8Bytes(X.Limbs[0])`,
where the gnark emulated BLS12-381 base-field element has 64-bit limbs with
`Limbs[0]` least significant. The host (`types.ComputeScPubKeysHash`)
hashes `X.Bytes()[32:48]`, bytes 32..47 of the 48-byte big-endian x. The x
coordinate of a key is modelled as its canonical integer value. -/

/-- The 64-bit limb `i` (least-significant first) of a field-element value. -/
def xLimb (x i : Nat) : Nat := x / 2 ^ (64 * i) % 2 ^ 64

/-- Gadget `serializeLimbTo8Bytes`: a 64-bit limb as 8 big-endian bytes (the gadget
packs `ToBinary(limb, 64)` into bytes and reverses the byte order). -/
def serializeLimbTo8Bytes (limb : Nat) : List Nat :=
  (List.range 8).map fun byteIdx => limb / 2 ^ (8 * (7 - byteIdx)) % 256

/-- Per-key bytes the circuit feeds to the commitment hasher:
`Limbs[1]` big-endian, then `Limbs[0]` big-endian. -/
def scKeyBytesCircuit (x : Nat) : List Nat :=
  serializeLimbTo8Bytes (xLimb x 1) ++ serializeLimbTo8Bytes (xLimb x 0)

/-- The full byte stream the circuit hashes for the 512-key commitment. -/
def scPubKeysHashInputCircuit (xs : Fin 512 → Nat) : List Nat :=
  (List.ofFn fun i => scKeyBytesCircuit (xs i)).flatten

/-- Gadget `verifyScPubKeysHash`: the circuit asserts the SHA-256 digest of the
per-key byte stream equals the public `ScPubKeysHash` byte-for-byte. -/
def verifyScPubKeysHash (xs : Fin 512 → Nat) (scPubKeysHash : List Nat) : Prop :=
  sha256 (scPubKeysHashInputCircuit xs) = scPubKeysHash

/-- Big-endian `n`-byte serialization of `x` (gnark-crypto `fp.Element.Bytes`). -/
def beBytes (n x : Nat) : List Nat :=
  (List.range n).map fun i => x / 2 ^ (8 * (n - 1 - i)) % 256

/-- Host-side per-key bytes: `xBytes[32:]` of the 48-byte big-endian x. -/
def scKeyBytesHost (x : Nat) : List Nat := (beBytes 48 x).drop 32

/-- Host `ComputeScPubKeysHash` over a list of key x-coordinates. -/
def ComputeScPubKeysHash (xs : List Nat) : List Nat :=
  sha256 (xs.map scKeyBytesHost).flatten

/-- Modelled from the claim's words: a per-key truncation consisting of the
two *most-significant* 64-bit limbs of the 6-limb (384-bit) x-coordinate,
serialized big-endian. -/
def scKeyBytesClaim (x : Nat) : List Nat :=
  serializeLimbTo8Bytes (xLimb x 5) ++ serializeLimbTo8Bytes (xLimb x 4)

/-- The byte stream the claim says the commitment hashes. -/
def scPubKeysHashInputClaim (xs : Fin 512 → Nat) : List Nat :=
  (List.ofFn fun i => scKeyBytesClaim (xs i)).flatten

/-- Dropping a power-of-two window commutes with an outer mod `2 ^ n` as
long as the window `[b, b + k)` lies inside the low `n` bits. -/
theorem div_mod_window (x b k n : Nat) (h : b + k ≤ n) :
    x % 2 ^ n / 2 ^ b % 2 ^ k = x / 2 ^ b % 2 ^ k := by
  conv_rhs => rw [← Nat.mod_add_div x (2 ^ n)]
  have hsplit : (2 : Nat) ^ n = 2 ^ b * 2 ^ (n - b) := by
    rw [← pow_add]
    congr 1
    omega
  rw [hsplit, mul_assoc, Nat.add_mul_div_left _ _ (Nat.two_pow_pos b)]
  have hsplit2 : (2 : Nat) ^ (n - b) = 2 ^ k * 2 ^ (n - b - k) := by
    rw [← pow_add]
    congr 1
    omega
  rw [hsplit2, mul_assoc, Nat.add_mul_mod_self_left]

/-- Byte `j` of the circuit's `Limbs[1]` serialization is byte `32 + j` of
the big-endian 48-byte x. -/
theorem scKeyBytes_limb1_byte (x j : Nat) (hj : j < 8) :
    xLimb x 1 / 2 ^ (8 * (7 - j)) % 256 = x / 2 ^ (8 * (48 - 1 - (32 + j))) % 256 := by
  rw [show (256 : Nat) = 2 ^ 8 from rfl, xLimb,
    div_mod_window (x / 2 ^ (64 * 1)) (8 * (7 - j)) 8 64 (by omega),
    Nat.div_div_eq_div_mul, ← pow_add]
  have he : 64 * 1 + 8 * (7 - j) = 8 * (48 - 1 - (32 + j)) := by omega
  rw [he]

/-- Byte `j` of the circuit's `Limbs[0]` serialization is byte `40 + j` of
the big-endian 48-byte x. -/
theorem scKeyBytes_limb0_byte (x j : Nat) (hj : j < 8) :
    xLimb x 0 / 2 ^ (8 * (7 - j)) % 256 = x / 2 ^ (8 * (48 - 1 - (32 + (8 + j)))) % 256 := by
  rw [show (256 : Nat) = 2 ^ 8 from rfl, xLimb, Nat.mul_zero, pow_zero, Nat.div_one,
    div_mod_window x (8 * (7 - j)) 8 64 (by omega)]
  have he : 8 * (7 - j) = 8 * (48 - 1 - (32 + (8 + j))) := by omega
  rw [he]

/-- The per-key bytes the circuit hashes coincide with the per-key bytes the
host hashes: both are the two *least-significant* limbs of x, i.e. bytes
32..47 of the big-endian 48-byte x. -/
theorem scKeyBytes_circuit_eq_host (x : Nat) :
    scKeyBytesCircuit x = scKeyBytesHost x := by
  unfold scKeyBytesCircuit scKeyBytesHost beBytes serializeLimbTo8Bytes
  rw [show (48 : Nat) = 32 + 16 from rfl, List.range_add, List.map_append,
    List.drop_left' (by simp), List.map_map,
    show (16 : Nat) = 8 + 8 from rfl, List.range_add, List.map_append, List.map_map]
  congr 1
  · exact List.map_congr_left fun j hj => by
      simpa [Function.comp] using scKeyBytes_limb1_byte x j (List.mem_range.mp hj)
  · exact List.map_congr_left fun j hj => by
      simpa [Function.comp] using scKeyBytes_limb0_byte x j (List.mem_range.mp hj)

/-- C2 counterexample: with all 512 x-coordinates equal to 1, the byte
stream the circuit commits to differs from the stream of two
*most-significant* limbs the claim describes (the circuit hashes the two
*least-significant* limbs). -/
theorem scPubKeysHash_claim_counterexample :
    scPubKeysHashInputCircuit (fun _ => 1) ≠ scPubKeysHashInputClaim (fun _ => 1) := by
  intro hEq
  unfold scPubKeysHashInputCircuit scPubKeysHashInputClaim at hEq
  rw [List.ofFn_succ (fun i => scKeyBytesCircuit ((fun _ => 1) i)),
    List.ofFn_succ (fun i => scKeyBytesClaim ((fun _ => 1) i)),
    List.flatten_cons, List.flatten_cons] at hEq
  have hlen : (scKeyBytesCircuit 1).length = (scKeyBytesClaim 1).length := by decide
  have hhead := (List.append_inj hEq hlen).1
  revert hhead
  decide

/-- C2 amended: the commitment preimage is, for each key in index
order, the two *least-significant* 64-bit limbs of the x-coordinate
serialized big-endian — exactly bytes 32..47 of the 48-byte big-endian x —
and the host `ComputeScPubKeysHash` hashes the same bytes, so the circuit's
assertion holds iff the public input equals the host-side digest
byte-for-byte. -/
theorem scPubKeysHash_correct (xs : Fin 512 → Nat) (scPubKeysHash : List Nat) :
    scPubKeysHashInputCircuit xs = ((List.ofFn xs).map scKeyBytesHost).flatten ∧
    (verifyScPubKeysHash xs scPubKeysHash ↔
      ComputeScPubKeysHash (List.ofFn xs) = scPubKeysHash) := by
  have hfun : (fun i : Fin 512 => scKeyBytesCircuit (xs i)) = scKeyBytesHost ∘ xs :=
    funext fun i => scKeyBytes_circuit_eq_host (xs i)
  have hinput : scPubKeysHashInputCircuit xs = ((List.ofFn xs).map scKeyBytesHost).flatten := by
    unfold scPubKeysHashInputCircuit
    rw [List.map_ofFn, hfun]
  refine ⟨hinput, ?_⟩
  unfold verifyScPubKeysHash ComputeScPubKeysHash
  rw [hinput]

/-! ## `expand_message_xmd` with SHA-256 (C5)

Embedding of `expandMessageXMD_SHA256` (`eth2_receipt_proof.go` lines
303-397): `B = 32`, `r_in_bytes = 64`, `maxLen = 255 * 32`. The Go `int`
length argument is modelled as `Int`. -/

/-- Byte-wise XOR of two equal-length byte strings. -/
def strxor (a b : List Nat) : List Nat := (a.zip b).map fun p => p.1 ^^^ p.2

/-- One iteration of the source's block loop: given `(uniform, prev)` and
the index byte `i`, append `b_i = H(strxor(b0, prev) ∥ i ∥ DST')`. -/
def xmdStep (b0 dstP : List Nat) (st : List Nat × List Nat) (i : Nat) : List Nat × List Nat :=
  let t := strxor b0 st.2
  let bi := sha256 (t ++ [i % 256] ++ dstP)
  (st.1 ++ bi, bi)

/-- Source `expandMessageXMD_SHA256`: returns `none` exactly when
`len_in_bytes <= 0 || len_in_bytes > 255*32`; otherwise hashes
`b0 = H(Z_pad ∥ msg ∥ l_i_b_str ∥ 0 ∥ DST')`, `b1 = H(b0 ∥ 1 ∥ DST')`, then
XOR-chains blocks `b_2 .. b_ell` and truncates to `len_in_bytes`. -/
def expandMessageXMD_SHA256 (msg dst : List Nat) (lenInBytes : Int) : Option (List Nat) :=
  if lenInBytes ≤ 0 ∨ lenInBytes > 255 * 32 then none
  else
    let len : Nat := lenInBytes.toNat
    let ell := (len + 32 - 1) / 32
    let dstP := dst ++ [dst.length % 256]
    let zPad : List Nat := List.replicate 64 0
    let lIB : List Nat := [len / 256 % 256, len % 256]
    let b0 := sha256 (zPad ++ msg ++ lIB ++ [0] ++ dstP)
    let b1 := sha256 (b0 ++ [1] ++ dstP)
    let st := (List.range' 2 (ell - 1)).foldl (xmdStep b0 dstP) (b1, b1)
    some (st.1.take len)

/-- Modelled from the claim (RFC 9380): `xmdBlock b0 dstP j` is block
`b_{j+1}` of expand_message_xmd, i.e. `b_1 = H(b0 ∥ 1 ∥ DST')` and
`b_{i} = H(strxor(b0, b_{i-1}) ∥ i ∥ DST')`. -/
def xmdBlock (b0 dstP : List Nat) : Nat → List Nat
  | 0 => sha256 (b0 ++ [1] ++ dstP)
  | j + 1 => sha256 (strxor b0 (xmdBlock b0 dstP j) ++ [(j + 2) % 256] ++ dstP)

/-- Modelled from the claim (RFC 9380): `ell = ceil(len/32)` blocks derived
by hashing the XOR-chained seed with DST' appended, truncated to `len`
bytes. -/
def xmdSpecBytes (msg dst : List Nat) (len : Nat) : List Nat :=
  let ell := (len + 32 - 1) / 32
  let dstP := dst ++ [dst.length % 256]
  let b0 := sha256 (List.replicate 64 0 ++ msg ++ [len / 256 % 256, len % 256] ++ [0] ++ dstP)
  (((List.range ell).map (xmdBlock b0 dstP)).flatten).take len

/-- Every expand_message_xmd block is 32 bytes. -/
theorem xmdBlock_length (b0 dstP : List Nat) (j : Nat) :
    (xmdBlock b0 dstP j).length = 32 := by
  cases j
  · exact sha256_length _
  · exact sha256_length _

/-- Loop invariant of the source's block loop: starting from block `j + 1`
with accumulated bytes `U`, folding over indices `j+2 .. j+n+1` appends
blocks `j+2 .. j+n+1` and ends holding block `j + n + 1`. -/
theorem xmdFold_eq (b0 dstP : List Nat) (n : Nat) :
    ∀ (j : Nat) (U : List Nat),
      (List.range' (j + 2) n).foldl (xmdStep b0 dstP) (U, xmdBlock b0 dstP j) =
        (U ++ ((List.range n).map fun t => xmdBlock b0 dstP (j + 1 + t)).flatten,
         xmdBlock b0 dstP (j + n)) := by
  induction n with
  | zero => intro j U; simp
  | succ m ih =>
      intro j U
      rw [List.range'_succ, List.foldl_cons]
      have hstep : xmdStep b0 dstP (U, xmdBlock b0 dstP j) (j + 2) =
          (U ++ xmdBlock b0 dstP (j + 1), xmdBlock b0 dstP (j + 1)) := rfl
      rw [hstep]
      have := ih (j + 1) (U ++ xmdBlock b0 dstP (j + 1))
      rw [show j + 1 + 2 = j + 2 + 1 from rfl] at this
      rw [this]
      simp only [Prod.mk.injEq]
      refine ⟨?_, ?_⟩
      · rw [List.append_assoc]
        congr 1
        rw [List.range_succ_eq_map, List.map_cons, List.flatten_cons, List.map_map]
        refine congrArg₂ (· ++ ·) rfl (congrArg List.flatten ?_)
        refine List.map_congr_left fun t _ => ?_
        simp only [Function.comp_apply]
        rw [show j + 1 + Nat.succ t = j + 1 + 1 + t by omega]
      · rw [show j + (m + 1) = j + 1 + m by omega]

/-- The source's block loop, started from `b_1` with `b_1` already
accumulated, produces exactly the concatenation of blocks `b_1 .. b_ell`. -/
theorem xmdUniformBlocks (b0 dstP : List Nat) (ell : Nat) (h : 1 ≤ ell) :
    ((List.range' 2 (ell - 1)).foldl (xmdStep b0 dstP)
        (xmdBlock b0 dstP 0, xmdBlock b0 dstP 0)).1 =
      ((List.range ell).map (xmdBlock b0 dstP)).flatten := by
  have hinv := xmdFold_eq b0 dstP (ell - 1) 0 (xmdBlock b0 dstP 0)
  rw [hinv]
  conv_rhs => rw [show ell = (ell - 1) + 1 by omega]
  rw [List.range_succ_eq_map, List.map_cons, List.flatten_cons, List.map_map]
  refine congrArg₂ (· ++ ·) rfl (congrArg List.flatten ?_)
  refine List.map_congr_left fun t _ => ?_
  simp only [Function.comp_apply]
  rw [show (0 : Nat) + 1 + t = Nat.succ t by omega]

/-- Sum of a constant-32 list over `range n`. -/
theorem sum_map_const32 (n : Nat) :
    ((List.range n).map fun _ => (32 : Nat)).sum = 32 * n := by
  induction n with
  | zero => rfl
  | succ m ih =>
      rw [List.range_succ, List.map_append, List.sum_append, ih]
      simp [Nat.mul_succ]

/-- Spec `xmdSpecBytes` always produces exactly `len` bytes (the `ell` blocks
cover at least `len` bytes, and the result is truncated to `len`). -/
theorem xmdSpecBytes_length (msg dst : List Nat) (len : Nat) :
    (xmdSpecBytes msg dst len).length = len := by
  simp only [xmdSpecBytes]
  rw [List.length_take, List.length_flatten, List.map_map]
  rw [List.map_congr_left
    (fun j _ => by simpa [Function.comp_apply] using xmdBlock_length _ _ j)]
  rw [sum_map_const32]
  omega

/-- C5: for every message, DST and requested length, the source's
`expandMessageXMD_SHA256` errors exactly when `len_in_bytes ≤ 0` or
`len_in_bytes > 255 * 32`, and otherwise returns the RFC 9380
expand_message_xmd bytes (`ell = ceil(len/32)` XOR-chained SHA-256 blocks
with DST' appended, truncated to `len_in_bytes`), which are exactly
`len_in_bytes` bytes. -/
theorem expandMessageXMD_correct (msg dst : List Nat) (lenInBytes : Int) :
    expandMessageXMD_SHA256 msg dst lenInBytes =
      (if 1 ≤ lenInBytes ∧ lenInBytes ≤ 255 * 32
        then some (xmdSpecBytes msg dst lenInBytes.toNat) else none) ∧
    (xmdSpecBytes msg dst lenInBytes.toNat).length = lenInBytes.toNat := by
  refine ⟨?_, xmdSpecBytes_length msg dst _⟩
  by_cases hc : 1 ≤ lenInBytes ∧ lenInBytes ≤ 255 * 32
  · obtain ⟨hc1, hc2⟩ := hc
    rw [if_pos ⟨hc1, hc2⟩]
    simp only [expandMessageXMD_SHA256, xmdSpecBytes]
    rw [if_neg (by omega)]
    have hell : 1 ≤ (lenInBytes.toNat + 32 - 1) / 32 := by omega
    congr 1
    congr 1
    exact xmdUniformBlocks _ _ _ hell
  · rw [if_neg hc]
    simp only [expandMessageXMD_SHA256]
    rw [if_pos (by omega)]

/-! ## OS2IP-mod-p reduction (C6)

`bytesToBLS12381FpMod` runs over gnark's emulated BLS12-381 base field;
emulated-field `MulConst`/`Add`/`Reduce` preserve the represented value
mod p, so field elements are modelled as `ZMod blsP`. -/

/-- The BLS12-381 base-field modulus p. -/
def blsP : Nat :=
  0x1a0111ea397fe69a4b1ba7b6434bacd764774b84f38512bf6730d2a0f6b0f6241eabfffeb153ffffb9feffffffffaaab

instance : NeZero blsP := ⟨by decide⟩

/-- Source `bytesToBLS12381FpMod`: Horner loop `res = res * 256 + byte` over the
field, then a final normalization (`Reduce`, the identity on the value). -/
def bytesToBLS12381FpMod (b : List Nat) : ZMod blsP :=
  b.foldl (fun res (d : Nat) => res * 256 + (d : ZMod blsP)) 0

/-- OS2IP: the big-endian integer value of a byte string. -/
def OS2IP (b : List Nat) : Nat := b.foldl (fun acc d => acc * 256 + d) 0

/-- Horner iteration in `ZMod blsP` computes the mod-p image of the Horner
iteration over the integers, for any starting accumulator. -/
theorem bytesToFpMod_foldl (b : List Nat) :
    ∀ n : Nat,
      b.foldl (fun res (d : Nat) => res * 256 + (d : ZMod blsP)) (n : ZMod blsP) =
        ((b.foldl (fun acc d => acc * 256 + d) n : Nat) : ZMod blsP) := by
  induction b with
  | nil => intro n; rfl
  | cons d t ih =>
      intro n
      simp only [List.foldl_cons]
      rw [show ((n : ZMod blsP) * 256 + (d : ZMod blsP)) = ((n * 256 + d : Nat) : ZMod blsP) by
        push_cast; ring]
      exact ih (n * 256 + d)

/-- C6: for every byte slice, `bytesToBLS12381FpMod` returns the
BLS12-381 base-field element equal to `OS2IP(b) mod p` — the big-endian
integer value of the bytes reduced modulo the field modulus. -/
theorem bytesToBLS12381FpMod_correct (b : List Nat) :
    bytesToBLS12381FpMod b = ((OS2IP b : Nat) : ZMod blsP) ∧
    (bytesToBLS12381FpMod b).val = OS2IP b % blsP := by
  have h : bytesToBLS12381FpMod b = ((OS2IP b : Nat) : ZMod blsP) := by
    have := bytesToFpMod_foldl b 0
    simpa [bytesToBLS12381FpMod, OS2IP] using this
  exact ⟨h, by rw [h, ZMod.val_natCast]⟩

/-! ## Public-key aggregation (C1, C7)

`aggregatePubKeys` (`eth2_receipt_proof.go` lines 484-522). G1 points are
elements of an arbitrary additive commutative monoid `G`; `curve.Add` is
`+`, `curve.Select` is `if`; the `ScBits` are booleans (the claims restrict
to bit values 0/1). -/

/-- Loop state: the accumulator point and the `hasInitialized` flag. -/
structure AggState (G : Type) where
  accumulator : G
  hasInit : Bool

/-- One iteration of the aggregation loop:
`isFirstSelected = !hasInitialized && bit`, `shouldAdd = hasInitialized &&
bit`, `sum = accumulator + pk`, two conditional selects,
`hasInitialized ||= bit`. -/
def aggStep {G : Type} [AddCommMonoid G] (st : AggState G) (pk : G) (bit : Bool) : AggState G :=
  let isFirstSelected := !st.hasInit && bit
  let shouldAdd := st.hasInit && bit
  let sum := st.accumulator + pk
  let tempResult := if shouldAdd then sum else st.accumulator
  let accumulator := if isFirstSelected then pk else tempResult
  { accumulator := accumulator, hasInit := st.hasInit || bit }

/-- Gadget `aggregatePubKeys`: start from `(ScPubKeys[0], ScBits[0])`, fold
the step over keys 1..511. The circuit finally asserts
`hasInitialized == 1`. -/
def aggregatePubKeys {G : Type} [AddCommMonoid G]
    (pks : Fin 512 → G) (bits : Fin 512 → Bool) : AggState G :=
  (List.ofFn fun i : Fin 511 => (pks i.succ, bits i.succ)).foldl
    (fun st pb => aggStep st pb.1 pb.2) ⟨pks 0, bits 0⟩

/-- The final `AssertIsEqual(hasInitialized, 1)` constraint. -/
def aggregateConstraintOk {G : Type} [AddCommMonoid G]
    (pks : Fin 512 → G) (bits : Fin 512 → Bool) : Prop :=
  (aggregatePubKeys pks bits).hasInit = true

/-- Sum of the keys whose bit is set, in list order. -/
def selSum {G : Type} [AddCommMonoid G] (l : List (G × Bool)) : G :=
  (l.map fun pb => if pb.2 then pb.1 else 0).sum

/-- Host `AggregatePublicKeys` (`types`, part_007 lines 71-96): start from
the identity (`SetInfinity`), add each selected key in index order,
counting selected keys. -/
def AggregatePublicKeys {G : Type} [AddCommMonoid G]
    (pks : Fin 512 → G) (bits : Fin 512 → Bool) : G × Nat :=
  (List.ofFn fun i : Fin 512 => (pks i, bits i)).foldl
    (fun st pb => if pb.2 then (st.1 + pb.1, st.2 + 1) else st) (0, 0)

/-- Once `hasInitialized` is set, the loop just adds each selected key. -/
theorem aggLoop_inited {G : Type} [AddCommMonoid G] (l : List (G × Bool)) :
    ∀ acc : G,
      l.foldl (fun st pb => aggStep st pb.1 pb.2) ⟨acc, true⟩ =
        ⟨acc + selSum l, true⟩ := by
  induction l with
  | nil => intro acc; simp [selSum]
  | cons pb t ih =>
      intro acc
      rw [List.foldl_cons]
      have hstep : aggStep (⟨acc, true⟩ : AggState G) pb.1 pb.2 =
          ⟨if pb.2 then acc + pb.1 else acc, true⟩ := by
        cases hb : pb.2 <;> simp [aggStep, hb]
      rw [hstep, ih]
      cases hb : pb.2 <;> simp [selSum, hb, add_assoc, AggState.mk.injEq]

/-- Before any bit is set the accumulator is untouched; the first selected
key replaces it (the addition gate's result is discarded), after which the
loop proceeds initialized. -/
theorem aggLoop_uninited {G : Type} [AddCommMonoid G] (l : List (G × Bool)) :
    ∀ acc : G,
      l.foldl (fun st pb => aggStep st pb.1 pb.2) ⟨acc, false⟩ =
        if l.any (fun pb => pb.2) then (⟨selSum l, true⟩ : AggState G) else ⟨acc, false⟩ := by
  induction l with
  | nil => intro acc; simp
  | cons pb t ih =>
      intro acc
      rw [List.foldl_cons]
      cases hb : pb.2
      · have hstep : aggStep (⟨acc, false⟩ : AggState G) pb.1 false = ⟨acc, false⟩ := by
          simp [aggStep]
        rw [hstep, ih acc]
        have hcond : ((pb :: t).any fun pb => pb.2) = (t.any fun pb => pb.2) := by
          simp [hb]
        have hsel : selSum (pb :: t) = selSum t := by
          simp [selSum, hb]
        rw [hcond, hsel]
      · have hstep : aggStep (⟨acc, false⟩ : AggState G) pb.1 true = ⟨pb.1, true⟩ := by
          simp [aggStep]
        rw [hstep, aggLoop_inited t pb.1]
        simp [selSum, hb]

/-- The host aggregation loop adds the selected keys to the accumulator and
counts them. -/
theorem hostAgg_foldl {G : Type} [AddCommMonoid G] (l : List (G × Bool)) :
    ∀ (x : G) (n : Nat),
      l.foldl (fun st pb => if pb.2 then (st.1 + pb.1, st.2 + 1) else st) (x, n) =
        (x + selSum l, n + (l.filter fun pb => pb.2).length) := by
  induction l with
  | nil => intro x n; simp [selSum]
  | cons pb t ih =>
      intro x n
      rw [List.foldl_cons]
      cases hb : pb.2
      · have hsel : selSum (pb :: t) = selSum t := by simp [selSum, hb]
        have hfil : ((pb :: t).filter fun pb => pb.2) = t.filter fun pb => pb.2 := by
          simp [List.filter_cons, hb]
        rw [if_neg (show ¬(false = true) by simp), ih x n, hsel, hfil]
      · have hsel : selSum (pb :: t) = pb.1 + selSum t := by simp [selSum, hb]
        have hfil : ((pb :: t).filter fun pb => pb.2) = pb :: t.filter fun pb => pb.2 := by
          simp [List.filter_cons, hb]
        rw [if_pos rfl, ih, hsel, hfil]
        refine congrArg₂ Prod.mk ?_ ?_
        · show x + pb.1 + selSum t = x + (pb.1 + selSum t)
          rw [add_assoc]
        · show n + 1 + (t.filter fun pb => pb.2).length =
            n + (pb :: t.filter fun pb => pb.2).length
          simp only [List.length_cons]
          omega

/-- Lemma: `selSum` over `List.ofFn` is the finite sum of the conditional terms. -/
theorem selSum_ofFn {G : Type} [AddCommMonoid G] {n : Nat} (f : Fin n → G × Bool) :
    selSum (List.ofFn f) = ∑ i, if (f i).2 then (f i).1 else 0 := by
  unfold selSum
  rw [List.map_ofFn, List.sum_ofFn]
  rfl

/-- The circuit accumulator equals the whole conditional sum, whenever some
bit is set. -/
theorem aggregate_acc_eq_sum {G : Type} [AddCommMonoid G]
    (pks : Fin 512 → G) (bits : Fin 512 → Bool) (h : ∃ i, bits i = true) :
    (aggregatePubKeys pks bits).accumulator =
      ∑ i : Fin 512, if bits i = true then pks i else 0 := by
  have htail : selSum (List.ofFn fun i : Fin 511 => (pks i.succ, bits i.succ)) =
      ∑ i : Fin 511, if bits i.succ = true then pks i.succ else 0 := selSum_ofFn _
  have hsplit : (∑ i : Fin 512, if bits i = true then pks i else 0) =
      (if bits 0 = true then pks 0 else 0) +
        ∑ i : Fin 511, if bits i.succ = true then pks i.succ else 0 :=
    Fin.sum_univ_succ _
  cases hb0 : bits 0
  · obtain ⟨i, hi⟩ := h
    have hne : i ≠ 0 := by
      intro he
      rw [he, hb0] at hi
      exact Bool.noConfusion hi
    obtain ⟨j, hj⟩ := Fin.eq_succ_of_ne_zero hne
    have hany : (List.ofFn fun i : Fin 511 => (pks i.succ, bits i.succ)).any
        (fun pb => pb.2) = true := by
      refine List.any_eq_true.mpr ⟨(pks i, bits i), ?_, hi⟩
      exact (List.mem_ofFn _ _).mpr (Set.mem_range.mpr ⟨j, by rw [hj]⟩)
    unfold aggregatePubKeys
    rw [hb0, aggLoop_uninited, hany, if_pos rfl]
    rw [hsplit, hb0, htail]
    simp
  · unfold aggregatePubKeys
    rw [hb0, aggLoop_inited]
    rw [hsplit, hb0, htail]
    simp

/-- C1: for boolean participation bits with at least one bit set, the
in-circuit accumulator equals the sum of exactly the keys whose bit is 1 —
stated as a `Finset` sum, which is independent of the order in which set
bits appear — and equals the host's plain off-circuit
`AggregatePublicKeys` sum of the selected keys. -/
theorem aggregatePubKeys_correct {G : Type} [AddCommMonoid G]
    (pks : Fin 512 → G) (bits : Fin 512 → Bool) (h : ∃ i, bits i = true) :
    (aggregatePubKeys pks bits).accumulator =
        ∑ i ∈ Finset.filter (fun i => bits i = true) Finset.univ, pks i ∧
    (aggregatePubKeys pks bits).accumulator = (AggregatePublicKeys pks bits).1 := by
  have hcirc := aggregate_acc_eq_sum pks bits h
  have hsum : ∑ i ∈ Finset.filter (fun i => bits i = true) Finset.univ, pks i =
      ∑ i : Fin 512, if bits i = true then pks i else 0 := Finset.sum_filter _ _
  have hhost : (AggregatePublicKeys pks bits).1 =
      ∑ i : Fin 512, if bits i = true then pks i else 0 := by
    unfold AggregatePublicKeys
    rw [hostAgg_foldl]
    rw [selSum_ofFn]
    simp
  exact ⟨by rw [hcirc, hsum], by rw [hcirc, hhost]⟩

/-- Witness for `aggregatePubKeys_correct`: all 512 bits set over `ℕ`. -/
theorem aggregatePubKeys_correct_witness :
    (∃ i : Fin 512, (fun _ : Fin 512 => true) i = true) ∧
    ((aggregatePubKeys (fun _ : Fin 512 => (1 : ℕ)) (fun _ => true)).accumulator =
        ∑ i ∈ Finset.filter (fun i : Fin 512 => (fun _ : Fin 512 => true) i = true)
          Finset.univ, (fun _ : Fin 512 => (1 : ℕ)) i ∧
      (aggregatePubKeys (fun _ : Fin 512 => (1 : ℕ)) (fun _ => true)).accumulator =
        (AggregatePublicKeys (fun _ : Fin 512 => (1 : ℕ)) (fun _ => true)).1) :=
  ⟨⟨0, rfl⟩, aggregatePubKeys_correct (fun _ => (1 : ℕ)) (fun _ => true) ⟨0, rfl⟩⟩

/-- C7: with boolean bits, the circuit's final
`AssertIsEqual(hasInitialized, 1)` is satisfiable exactly when at least one
participation bit is set; in particular an all-zero bit vector leaves the
constraints unsatisfiable. -/
theorem aggregateConstraintOk_iff {G : Type} [AddCommMonoid G]
    (pks : Fin 512 → G) (bits : Fin 512 → Bool) :
    aggregateConstraintOk pks bits ↔ ∃ i, bits i = true := by
  unfold aggregateConstraintOk aggregatePubKeys
  cases hb0 : bits 0
  · rw [aggLoop_uninited]
    by_cases hany : (List.ofFn fun i : Fin 511 => (pks i.succ, bits i.succ)).any
        (fun pb => pb.2) = true
    · rw [hany, if_pos rfl]
      simp only [true_iff]
      obtain ⟨x, hxmem, hx2⟩ := List.any_eq_true.mp hany
      obtain ⟨j, hj⟩ := Set.mem_range.mp ((List.mem_ofFn _ _).mp hxmem)
      exact ⟨j.succ, by rw [← hj] at hx2; exact hx2⟩
    · rw [Bool.not_eq_true] at hany
      rw [hany, if_neg (by simp)]
      simp only [Bool.false_eq_true, false_iff]
      rintro ⟨i, hi⟩
      have hne : i ≠ 0 := by
        intro he
        rw [he, hb0] at hi
        exact Bool.noConfusion hi
      obtain ⟨j, hj⟩ := Fin.eq_succ_of_ne_zero hne
      have hany2 : (List.ofFn fun i : Fin 511 => (pks i.succ, bits i.succ)).any
          (fun pb => pb.2) = true := by
        apply List.any_eq_true.mpr
        refine ⟨(pks i, bits i), ?_, hi⟩
        rw [List.mem_ofFn]
        exact Set.mem_range.mpr ⟨j, by rw [hj]⟩
      rw [hany] at hany2
      exact Bool.noConfusion hany2
  · rw [aggLoop_inited]
    exact iff_of_true rfl ⟨0, hb0⟩

/-! ## Relayer run-loop error handling (C8)

One iteration of the `for` loop in `Relayer.Run` (part_010 lines 95-154),
with the file-system and RPC effects abstracted to success flags. -/

/-- Outcome flags for one iteration of `Relayer.Run`'s loop: whether the
update fetch, proof generation (witness build + prove), proof marshalling,
proof-file write, and next-committee pubkey parsing succeed. -/
structure UpdateEnv where
  fetchOk : Bool
  proofOk : Bool
  marshalOk : Bool
  writeOk : Bool
  pubkeyOk : Bool

/-- Result of one loop iteration: `Run` either returns an error (the
relayer halts) or continues with the period to process next. -/
inductive RunStepResult where
  | halted
  | next (period : Nat)
deriving DecidableEq

/-- One iteration of `Relayer.Run`'s loop: a fetch error logs, sleeps and
`continue`s at the same period; an error from `generateProof`,
`MarshalIndent`, `WriteFile` or pubkey parsing makes `Run` `return` the
wrapped error; on success the period advances. -/
def relayerRunStep (env : UpdateEnv) (period : Nat) : RunStepResult :=
  if !env.fetchOk then .next period
  else if !env.proofOk then .halted
  else if !env.marshalOk then .halted
  else if !env.writeOk then .halted
  else if !env.pubkeyOk then .halted
  else .next (period + 1)

/-- C8 counterexample: at period 1105, an update on which
`generateProof` fails makes `Relayer.Run` return the error — the loop does
*not* continue to the next update. -/
theorem relayerRun_proofError_counterexample :
    relayerRunStep ⟨true, false, true, true, true⟩ 1105 = RunStepResult.halted := rfl

/-- C8 amended: in the loop of `Relayer.Run` only a fetch failure is
reported and skipped (retrying the same period); a `generateProof` failure
is fatal: `Run` returns the wrapped error. On success the loop advances to
the next period. -/
theorem relayerRunStep_amended (period : Nat) (pr m w k : Bool) :
    relayerRunStep ⟨false, pr, m, w, k⟩ period = RunStepResult.next period ∧
    relayerRunStep ⟨true, false, m, w, k⟩ period = RunStepResult.halted ∧
    relayerRunStep ⟨true, true, true, true, true⟩ period =
      RunStepResult.next (period + 1) :=
  ⟨rfl, rfl, rfl⟩

/-! ## Circuit setup caching (C9)

The three entry points that set up the compiled constraint system, with
file-system presence of the persisted `.ccs` artifact as a boolean. Each
model returns where the constraint system came from and whether the
artifact exists on disk afterwards. -/

/-- Where a constraint system came from during setup. -/
inductive ArtifactSource where
  | compiledFresh
  | loadedFromCache
  | setupFailed
deriving DecidableEq

/-- Test helper `onceSetupCircuit` (`eth2_sc_update_test.go` lines 568-589): try to
open the `.ccs` file; on open error compile `Eth2ScUpdateCircuit` and write
the file, otherwise read the compiled constraint system from it. -/
def onceSetupCircuitCcs (cachePresent : Bool) : ArtifactSource × Bool :=
  if cachePresent then (.loadedFromCache, true) else (.compiledFresh, true)

/-- Prover-cmd `SetupCircuit` (part_009 lines 33-57): unconditionally
compiles the circuit and writes the `.ccs` file; it never checks for or
reads a cached artifact. -/
def setupCircuitCcs (cachePresent : Bool) : ArtifactSource × Bool :=
  (.compiledFresh, true)

/-- Function `Relayer.setupCircuit` (part_010 lines 158-182): only opens and reads
the `.ccs` file; when the file is absent it returns an error, and it never
compiles. -/
def relayerSetupCircuitCcs (cachePresent : Bool) : ArtifactSource × Bool :=
  if cachePresent then (.loadedFromCache, true) else (.setupFailed, false)

/-- C9 counterexample: the prover-cmd `SetupCircuit` recompiles even when the
persisted build artifact exists — it does not reload the compiled
constraint system from the cache file. -/
theorem setupCircuit_cache_counterexample :
    (setupCircuitCcs true).1 = ArtifactSource.compiledFresh ∧
    (setupCircuitCcs true).1 ≠ ArtifactSource.loadedFromCache := by decide

/-- C9 amended: only the test helper `onceSetupCircuit` implements
compile-when-missing / load-when-present (and persists in both cases); the
prover-cmd `SetupCircuit` always compiles (and overwrites the artifact)
regardless of the cache, and `Relayer.setupCircuit` only loads, failing
when the artifact is absent. -/
theorem circuitSetupCache_amended (cachePresent : Bool) :
    ((onceSetupCircuitCcs cachePresent).1 = ArtifactSource.loadedFromCache ↔
      cachePresent = true) ∧
    ((onceSetupCircuitCcs cachePresent).1 = ArtifactSource.compiledFresh ↔
      cachePresent = false) ∧
    (onceSetupCircuitCcs cachePresent).2 = true ∧
    (setupCircuitCcs cachePresent).1 = ArtifactSource.compiledFresh ∧
    ((relayerSetupCircuitCcs cachePresent).1 = ArtifactSource.loadedFromCache ↔
      cachePresent = true) ∧
    ((relayerSetupCircuitCcs cachePresent).1 = ArtifactSource.setupFailed ↔
      cachePresent = false) := by
  cases cachePresent <;> decide

/-! ## Sync-committee bit parsing (C10) -/

/-- Host `ParseSyncCommitteeBits` (`types`, part_007 lines 58-68): always
produces 512 booleans; bit `i` is read from bit `i % 8` of byte `i / 8`
when that byte exists, and stays `false` otherwise. -/
def ParseSyncCommitteeBits (bitsBytes : List Nat) : List Bool :=
  (List.range 512).map fun i =>
    if i / 8 < bitsBytes.length then (bitsBytes.getD (i / 8) 0 &&& 1 <<< (i % 8)) != 0
    else false

/-- The bit test the source performs coincides with `Nat.testBit`. -/
theorem parseBit_eq_testBit (b k : Nat) :
    ((b &&& 1 <<< k) != 0) = b.testBit k := by
  rw [Nat.one_shiftLeft, Nat.and_two_pow]
  cases h : b.testBit k <;> simp [h, pow_ne_zero]

/-- Entry `i` of the parsed bit list, via the default-value accessor. -/
theorem parseSyncCommitteeBits_getD (bitsBytes : List Nat) (i : Fin 512) :
    (ParseSyncCommitteeBits bitsBytes).getD i.val false =
      (decide (i.val / 8 < bitsBytes.length) &&
        (bitsBytes.getD (i.val / 8) 0).testBit (i.val % 8)) := by
  have hi : i.val < 512 := i.isLt
  unfold ParseSyncCommitteeBits
  rw [List.getD_eq_getElem?_getD, List.getElem?_map, List.getElem?_range hi]
  by_cases hlen : i.val / 8 < bitsBytes.length
  · simp [hlen, parseBit_eq_testBit]
  · simp [hlen]

/-- C10: for every input byte slice of any length,
`ParseSyncCommitteeBits` returns exactly 512 booleans; bit `i` is true iff
byte `i/8` exists in the input and bit `i%8` of that byte is set; bits past
the end of a short input are silently false, and bytes beyond the first 64
are silently ignored. -/
theorem parseSyncCommitteeBits_correct (bitsBytes : List Nat) :
    (ParseSyncCommitteeBits bitsBytes).length = 512 ∧
    (∀ i : Fin 512,
      (ParseSyncCommitteeBits bitsBytes).getD i.val false =
        (decide (i.val / 8 < bitsBytes.length) &&
          (bitsBytes.getD (i.val / 8) 0).testBit (i.val % 8))) ∧
    ParseSyncCommitteeBits bitsBytes = ParseSyncCommitteeBits (bitsBytes.take 64) := by
  refine ⟨by simp [ParseSyncCommitteeBits], parseSyncCommitteeBits_getD bitsBytes, ?_⟩
  unfold ParseSyncCommitteeBits
  refine List.map_congr_left fun i hmem => ?_
  have hi : i < 512 := List.mem_range.mp hmem
  have hdiv : i / 8 < 64 := by omega
  by_cases hlen : i / 8 < bitsBytes.length
  · have hlen2 : i / 8 < (bitsBytes.take 64).length := by
      rw [List.length_take]
      exact lt_min hdiv hlen
    have hbyte : (bitsBytes.take 64).getD (i / 8) 0 = bitsBytes.getD (i / 8) 0 := by
      rw [List.getD_eq_getElem?_getD, List.getD_eq_getElem?_getD, List.getElem?_take,
        if_pos hdiv]
    rw [if_pos hlen, if_pos hlen2, hbyte]
  · have hlen2 : ¬ i / 8 < (bitsBytes.take 64).length := by
      rw [List.length_take, lt_min_iff]
      intro hcon
      exact hlen hcon.2
    rw [if_neg hlen, if_neg hlen2]
